import Mathlib

/-! Verification development for the ClaudeHopper construction-document
retrieval pipeline.  The definitions below are a shallow embedding of the
TypeScript sources: the metadata extractor and merger
(`utils/metadata_extractor.ts`), the seeding pipeline (`seed.ts`), the
chunk/broad/image search tools (`tools/operations/*.ts`) and the LanceDB
connection setup (`lancedb/client.ts`).  JavaScript strings are modelled as
Lean `String`, JavaScript objects with optional string fields as structures
of `Option String`, and JavaScript truthiness of a string field
(`undefined` or `""` are falsy) as `truthyOpt`.
-/

namespace ClaudeHopper

/-- JavaScript truthiness of an optional string field: absent (`undefined`)
and the empty string are falsy, everything else is truthy. -/
def truthyOpt (v : Option String) : Bool :=
  match v with
  | some s => s != ""
  | none => false

/-- Model of `filePath.replace(/\\/g, '/')`: every backslash becomes a
forward slash. -/
def normalizeSlashes (s : String) : String :=
  String.mk (s.toList.map (fun c => if c == '\\' then '/' else c))

/-- Model of JavaScript `String.prototype.toLowerCase` for the ASCII
strings compared by the extractor. -/
def toLowerStr (s : String) : String :=
  String.mk (s.toList.map Char.toLower)

/-- Splits a character list at every occurrence of the separator character;
always returns at least one (possibly empty) piece, matching
`String.prototype.split` with a one-character separator. -/
def splitOnCharList (sep : Char) : List Char → List (List Char)
  | [] => [[]]
  | c :: rest =>
    let r := splitOnCharList sep rest
    if c == sep then [] :: r
    else
      match r with
      | [] => [[c]]
      | h :: t => (c :: h) :: t

/-- Model of JavaScript `s.split(sep)` for a one-character separator. -/
def splitStr (s : String) (sep : Char) : List String :=
  (splitOnCharList sep s.toList).map String.mk

/-- Whether `pat` occurs as a contiguous subsequence of `s`; model of
`String.prototype.includes`. -/
def infixChars (pat : List Char) : List Char → Bool
  | [] => pat.isEmpty
  | c :: rest => pat.isPrefixOf (c :: rest) || infixChars pat rest

/-- Model of JavaScript `s.includes(pat)`. -/
def strIncludes (s pat : String) : Bool :=
  infixChars pat.toList s.toList

/-- Model of JavaScript `s.startsWith(pre)`. -/
def strStarts (s pre : String) : Bool :=
  pre.toList.isPrefixOf s.toList

/-- Model of Node `path.basename`: the final segment of the
slash-normalized path, ignoring trailing slashes. -/
def basenameOf (p : String) : String :=
  match ((splitStr p '/').filter (fun q => q != "")).getLast? with
  | some s => s
  | none => ""

/-- Position of the last dot in a character list, if any. -/
def lastDotPos (cs : List Char) : Option Nat :=
  match cs.reverse.findIdx? (fun c => c == '.') with
  | some j => some (cs.length - 1 - j)
  | none => none

/-- Model of Node `path.basename(p, path.extname(p))` applied to a
basename: drops the extension starting at the last dot, unless that dot is
the leading character (Node treats a leading dot as part of the name). -/
def stemOf (name : String) : String :=
  let cs := name.toList
  match lastDotPos cs with
  | some i => if i == 0 then name else String.mk (cs.take i)
  | none => name

/-- Value of a maximal run of leading decimal digits, `none` when there is
no leading digit. -/
def leadingDigitsVal (cs : List Char) : Option Nat :=
  let ds := cs.takeWhile Char.isDigit
  if ds.isEmpty then none
  else some (ds.foldl (fun a c => a * 10 + (c.toNat - 48)) 0)

/-- Model of JavaScript `parseInt(s)` (base 10): skips leading whitespace,
accepts an optional sign and parses the maximal run of leading digits;
`none` models `NaN`.  (The hexadecimal `0x` prefix of `parseInt` is not
modelled; the sheet-number and division-number inputs it is applied to are
plain decimal digit strings.) -/
def parseIntJS (s : String) : Option Int :=
  let cs := s.toList.dropWhile Char.isWhitespace
  match cs with
  | '-' :: rest => (leadingDigitsVal rest).map (fun n => -(n : Int))
  | '+' :: rest => (leadingDigitsVal rest).map (fun n => (n : Int))
  | rest => (leadingDigitsVal rest).map (fun n => (n : Int))

/-- The canonical metadata record (`DocumentMetadata` in
`metadata_extractor.ts`): all fields optional strings. -/
structure DocumentMetadata where
  project : Option String := none
  discipline : Option String := none
  drawingNumber : Option String := none
  drawingType : Option String := none
  phase : Option String := none
  documentType : Option String := none
  revision : Option String := none
  «section» : Option String := none
  sheetNumber : Option String := none
  buildingArea : Option String := none
deriving Repr, DecidableEq

/-- One field of `mergeMetadata`: iterate the sources in order and let
every truthy value overwrite the accumulator (the body of the
`for (const [key, value] of Object.entries(source)) if (value) ...` loop,
specialized to one key). -/
def mergeField (f : DocumentMetadata → Option String) (sources : List DocumentMetadata) : Option String :=
  sources.foldl (fun acc s => if truthyOpt (f s) then f s else acc) none

/-- Model of `mergeMetadata(...sources)`: later sources overwrite earlier
ones field-by-field, but only with truthy values.  The JavaScript original
iterates the keys of each source object; on the declared interface fields
that is exactly a per-field fold. -/
def mergeMetadata (sources : List DocumentMetadata) : DocumentMetadata where
  project := mergeField (fun s => s.project) sources
  discipline := mergeField (fun s => s.discipline) sources
  drawingNumber := mergeField (fun s => s.drawingNumber) sources
  drawingType := mergeField (fun s => s.drawingType) sources
  phase := mergeField (fun s => s.phase) sources
  documentType := mergeField (fun s => s.documentType) sources
  revision := mergeField (fun s => s.revision) sources
  «section» := mergeField (fun s => s.«section») sources
  sheetNumber := mergeField (fun s => s.sheetNumber) sources
  buildingArea := mergeField (fun s => s.buildingArea) sources

/-- The value of the last source in which the field is truthy (the
specification of the merge priority). -/
def lastTruthyField (f : DocumentMetadata → Option String) (sources : List DocumentMetadata) : Option String :=
  match sources.reverse.find? (fun s => truthyOpt (f s)) with
  | some s => f s
  | none => none

/-- Model of `getSpecificationDiscipline` of `metadata_extractor.ts`: maps a CSI
MasterFormat division number to a discipline.  The branches are translated
in the order they appear in the source; note the `divNum === 9` branch
comes after the `1 ≤ divNum ≤ 14` branch there.  A `none` from `parseInt`
models `NaN`, for which every numeric comparison is false. -/
def getSpecificationDiscipline (divisionNumber : String) : String :=
  match parseIntJS divisionNumber with
  | some divNum =>
    if 1 ≤ divNum ∧ divNum ≤ 14 then "Architectural"
    else if 21 ≤ divNum ∧ divNum ≤ 23 then "Mechanical"
    else if 25 ≤ divNum ∧ divNum ≤ 28 then "Electrical"
    else if 31 ≤ divNum ∧ divNum ≤ 35 then "Civil"
    else if divNum = 9 then "Finishes"
    else "General"
  | none => "General"

/-- Tries to match the regular expression `Division\s+(\d+)` (with the `i`
flag) at the start of the given character list: a case-insensitive
`division`, at least one whitespace character, then the maximal run of
digits, which is the captured group. -/
def divisionTryAt (cs : List Char) : Option String :=
  if ((cs.take 8).map Char.toLower).isPrefixOf "division".toList ∧ cs.length ≥ 8 then
    let rest := cs.drop 8
    let ws := rest.takeWhile Char.isWhitespace
    if ws.isEmpty then none
    else
      let ds := (rest.drop ws.length).takeWhile Char.isDigit
      if ds.isEmpty then none else some (String.mk ds)
  else none

/-- Search of `filename.match(/Division\s+(\d+)/i)`: the captured digit
group of the first position where the pattern matches. -/
def divisionSearch : List Char → Option String
  | [] => none
  | c :: rest =>
    match divisionTryAt (c :: rest) with
    | some ds => some ds
    | none => divisionSearch rest

/-- Document-type classification block of `extractMetadataFromPath`:
`/Drawings/` in the path makes a Drawing, `/TextDocs/` a TextDoc, and a
TextDoc whose filename starts with `Division` is reclassified as a
Specification with the CSI-division discipline. -/
def docTypePhase (normalizedPath filename : String) (md : DocumentMetadata) : DocumentMetadata :=
  if strIncludes normalizedPath "/Drawings/" then
    { md with documentType := some "Drawing" }
  else if strIncludes normalizedPath "/TextDocs/" then
    let md := { md with documentType := some "TextDoc" }
    if strStarts filename "Division" then
      let md := { md with documentType := some "Specification" }
      match divisionSearch filename.toList with
      | some digits => { md with discipline := some (getSpecificationDiscipline digits) }
      | none => md
    else md
  else md

/-- The predicate of the `pathParts.findIndex` call that looks for a
project folder. -/
def isProjectSegment (part : String) : Bool :=
  toLowerStr part == "projects" || toLowerStr part == "project" || toLowerStr part == "pdfdrawings-mcp"

/-- Project block of `extractMetadataFromPath`: the default project name is
`PDFdrawings`; the segment after the first matching folder overrides it
unless that folder is the application root `pdfdrawings-mcp`. -/
def projectPhase (pathParts : List String) (md : DocumentMetadata) : DocumentMetadata :=
  let md := { md with project := some "PDFdrawings" }
  match pathParts.findIdx? isProjectSegment with
  | some idx =>
    if idx + 1 < pathParts.length then
      if toLowerStr (pathParts.getD idx "") != "pdfdrawings-mcp" then
        { md with project := some (pathParts.getD (idx + 1) "") }
      else md
    else md
  | none => md

/-- The single-letter discipline code table of `extractMetadataFromPath`. -/
def disciplineCodeMap (c : Char) : Option String :=
  if c == 'S' then some "Structural"
  else if c == 'C' then some "Civil"
  else if c == 'A' then some "Architectural"
  else if c == 'M' then some "Mechanical"
  else if c == 'E' then some "Electrical"
  else if c == 'P' then some "Plumbing"
  else if c == 'L' then some "Landscape"
  else if c == 'G' then some "General"
  else if c == 'D' then some "Demolition"
  else if c == 'F' then some "Fire Protection"
  else if c == 'T' then some "Telecommunications"
  else if c == 'I' then some "Interiors"
  else none

/-- Discipline-code assignment: `disciplineMap[code.toUpperCase()] ||
metadata.discipline`. -/
def applyDisciplineCode (drawingNumber : String) (md : DocumentMetadata) : DocumentMetadata :=
  match drawingNumber.toList.head? with
  | some c =>
    { md with discipline :=
        match disciplineCodeMap c.toUpper with
        | some d => some d
        | none => md.discipline }
  | none => md

/-- The sheet-number bands that infer a drawing type. -/
def sheetBand (sheetNum : Int) : Option String :=
  if 1 ≤ sheetNum ∧ sheetNum ≤ 99 then some "General"
  else if 100 ≤ sheetNum ∧ sheetNum ≤ 199 then some "Plans"
  else if 200 ≤ sheetNum ∧ sheetNum ≤ 299 then some "Elevations"
  else if 300 ≤ sheetNum ∧ sheetNum ≤ 399 then some "Sections"
  else if 400 ≤ sheetNum ∧ sheetNum ≤ 499 then some "Details"
  else if 500 ≤ sheetNum ∧ sheetNum ≤ 599 then some "Schedules"
  else if 600 ≤ sheetNum ∧ sheetNum ≤ 699 then some "Diagrams"
  else none

/-- Sheet-segment handling: sets `sheetNumber` and, when `parseInt` of the
segment lands in a band, the `drawingType`. -/
def applySheet (sheet : String) (md : DocumentMetadata) : DocumentMetadata :=
  let md := { md with sheetNumber := some sheet }
  match parseIntJS sheet with
  | some n =>
    match sheetBand n with
    | some t => { md with drawingType := some t }
    | none => md
  | none => md

/-- Hyphen-segment handling of the drawing number: second segment is the
building area, third segment is the sheet number. -/
def applyParts (drawingNumber : String) (md : DocumentMetadata) : DocumentMetadata :=
  let parts := splitStr drawingNumber '-'
  if parts.length > 1 then
    let md := if parts.getD 1 "" != "" then { md with buildingArea := some (parts.getD 1 "") } else md
    if parts.length > 2 && parts.getD 2 "" != "" then
      applySheet (parts.getD 2 "") md
    else md
  else md

/-- Drawing-number decoding block of `extractMetadataFromPath`: only
applied when the drawing number is truthy and the document was classified
as a Drawing. -/
def drawingPhase (drawingNumber : String) (md : DocumentMetadata) : DocumentMetadata :=
  if (drawingNumber != "") && (md.documentType == some "Drawing") then
    applyParts drawingNumber (applyDisciplineCode drawingNumber md)
  else md

/-- Model of `extractMetadataFromPath` of `metadata_extractor.ts`. -/
def extractMetadataFromPath (filePath : String) : DocumentMetadata :=
  let normalizedPath := normalizeSlashes filePath
  let pathParts := splitStr normalizedPath '/'
  let filename := basenameOf normalizedPath
  let drawingNumber := stemOf filename
  let md : DocumentMetadata := { drawingNumber := some drawingNumber }
  let md := docTypePhase normalizedPath filename md
  let md := projectPhase pathParts md
  drawingPhase drawingNumber md

/-! ### Seeding pipeline (`seed.ts`) -/

/-- Metadata attached to a raw document or chunk.  A freshly loaded or
split chunk carries only its source path and location marker (`seed.ts`
reduces raw-document metadata to `{ loc, source }` before processing); an
enriched chunk additionally carries the catalog record's hash and canonical
document metadata, spread into the same flat object. -/
structure ChunkMetadata where
  source : String := ""
  loc : Option String := none
  hash : Option String := none
  doc : DocumentMetadata := {}
deriving Repr, DecidableEq

/-- A langchain `Document`: page content plus metadata. -/
structure Chunk where
  pageContent : String := ""
  metadata : ChunkMetadata := {}
deriving Repr, DecidableEq

/-- Metadata of a staged catalog record: `{ source, hash, ...metadata }`. -/
structure CatalogMetadata where
  source : String
  hash : String
  doc : DocumentMetadata
deriving Repr, DecidableEq

/-- A staged catalog record: the generated one-sentence overview as page
content, plus the catalog metadata. -/
structure CatalogRecord where
  pageContent : String
  metadata : CatalogMetadata
deriving Repr, DecidableEq

/-- Model of JavaScript `array.join(" ")`. -/
def joinWithSpace (l : List String) : String :=
  match l with
  | [] => ""
  | h :: t => t.foldl (fun a b => a ++ " " ++ b) h

/-- The external effects used by `processDocuments`, abstracted as oracles:
`hashOf` is the result of reading and SHA-256-hashing the source file
(`none` models a thrown exception), `catalogHas` is the exact-match hash
query against the catalog table, `extractMeta` is `extractMetadata(source,
allText)` and `overview` is the summarization model's overview for the
given source (each `none` models a thrown or failed call, which the
source's per-document `try/catch` swallows). -/
structure IndexEnv where
  hashOf : String → Option String
  catalogHas : String → Bool
  extractMeta : String → String → Option DocumentMetadata
  overview : String → Option String

/-- First occurrences of each element, in order of first appearance; the
key order of a JavaScript object built by insertion. -/
def firstOccurrencesAux (seen : List String) : List String → List String
  | [] => []
  | s :: rest =>
    if seen.contains s then firstOccurrencesAux seen rest
    else s :: firstOccurrencesAux (seen ++ [s]) rest

/-- Key list of the `docsBySource` grouping object. -/
def firstOccurrences (l : List String) : List String :=
  firstOccurrencesAux [] l

/-- The source paths of a document list. -/
def sourcesOf (docs : List Chunk) : List String :=
  docs.map (fun d => d.metadata.source)

/-- Model of the `rawDocs.reduce` grouping in `processDocuments`: an entry
per source path in order of first appearance, carrying that source's
documents in their original order. -/
def groupBySource (docs : List Chunk) : List (String × List Chunk) :=
  (firstOccurrences (sourcesOf docs)).map
    (fun s => (s, docs.filter (fun d => d.metadata.source == s)))

/-- One iteration of the per-source loop of `processDocuments`: hash the
source (a failure is caught and leaves both accumulators unchanged); if a
record with the hash exists, push the source onto the skip list; otherwise
extract metadata, generate the overview (again, a failure leaves the
accumulators unchanged) and stage a catalog record. -/
def processStep (env : IndexEnv) (skipExistsCheck : Bool)
    (acc : List String × List CatalogRecord) (entry : String × List Chunk) :
    List String × List CatalogRecord :=
  match env.hashOf entry.1 with
  | none => acc
  | some hash =>
    if (if skipExistsCheck then false else env.catalogHas hash) then
      (acc.1 ++ [entry.1], acc.2)
    else
      let allText := joinWithSpace (entry.2.map (fun d => d.pageContent))
      match env.extractMeta entry.1 allText with
      | none => acc
      | some md =>
        match env.overview entry.1 with
        | none => acc
        | some ov =>
          (acc.1, acc.2 ++ [{ pageContent := ov,
                              metadata := { source := entry.1, hash := hash, doc := md } }])

/-- Model of `processDocuments` of `seed.ts`: returns the skip list and the
staged catalog records. -/
def processDocuments (env : IndexEnv) (rawDocs : List Chunk) (skipExistsCheck : Bool) :
    List String × List CatalogRecord :=
  (groupBySource rawDocs).foldl (processStep env skipExistsCheck) ([], [])

/-- Whether `processDocuments` skips the given source: its hash computes
and an exact-match catalog record exists (and the existence check was not
bypassed). -/
def skipDecision (env : IndexEnv) (skipExistsCheck : Bool) (s : String) : Bool :=
  match env.hashOf s with
  | some hash => if skipExistsCheck then false else env.catalogHas hash
  | none => false

/-- The catalog record `processDocuments` stages for a grouped entry, if
any. -/
def recordFor (env : IndexEnv) (skipExistsCheck : Bool) (entry : String × List Chunk) :
    Option CatalogRecord :=
  match env.hashOf entry.1 with
  | none => none
  | some hash =>
    if (if skipExistsCheck then false else env.catalogHas hash) then none
    else
      let allText := joinWithSpace (entry.2.map (fun d => d.pageContent))
      match env.extractMeta entry.1 allText with
      | none => none
      | some md =>
        (env.overview entry.1).map
          (fun ov => { pageContent := ov,
                       metadata := { source := entry.1, hash := hash, doc := md } })

/-! ### Chunk enricher (`enhanceDocumentsWithMetadata`) -/

/-- The `metadataBySource` map of `enhanceDocumentsWithMetadata`: built by
iterating the catalog records and `Map.set`-ting each record's metadata
under its source; a later record overwrites an earlier one with the same
source. -/
def metadataBySource (records : List CatalogRecord) : String → Option CatalogMetadata :=
  records.foldl (fun m r => fun s => if s == r.metadata.source then some r.metadata else m s)
    (fun _ => none)

/-- The per-chunk body of `enhanceDocumentsWithMetadata`: when the chunk's
source has a catalog entry, the chunk's metadata object is replaced by the
catalog metadata with the chunk's own `loc` preserved; otherwise the chunk
is returned untouched. -/
def enhanceOne (records : List CatalogRecord) (doc : Chunk) : Chunk :=
  match metadataBySource records doc.metadata.source with
  | some cat =>
    { doc with metadata :=
        { source := cat.source, hash := some cat.hash, doc := cat.doc,
          loc := doc.metadata.loc } }
  | none => doc

/-- Model of `enhanceDocumentsWithMetadata` of `seed.ts`. -/
def enhanceDocumentsWithMetadata (docs : List Chunk) (records : List CatalogRecord) : List Chunk :=
  docs.map (enhanceOne records)

/-- The metadata reduction `doc.metadata = { loc, source }` applied to the
freshly loaded documents in `seed()`. -/
def minimizeDocs (rawDocs : List Chunk) : List Chunk :=
  rawDocs.map (fun d => { d with metadata := { source := d.metadata.source, loc := d.metadata.loc } })

/-- The intermediate results of one `seed()` run that the claims are
about. -/
structure SeedResult where
  skipSources : List String
  catalogRecords : List CatalogRecord
  filteredRawDocs : List Chunk
  chunks : List Chunk
deriving Repr, DecidableEq

/-- Model of the dataflow of `seed()` after loading: reduce raw-document
metadata to `{ loc, source }`, run `processDocuments` (the existence check
is bypassed when the overwrite flag is set or the catalog table did not
exist), drop documents of skipped sources, split the remainder (the
recursive character splitter is abstracted as a per-document splitting
function applied via `flatMap`), and enrich the resulting chunks with the
staged catalog metadata.  The `chunks` component is what is embedded into
the chunks vector store. -/
def seedPipeline (env : IndexEnv) (split : Chunk → List Chunk) (rawDocs : List Chunk)
    (overwrite catalogTableExists : Bool) : SeedResult :=
  let docsMin := minimizeDocs rawDocs
  let pd := processDocuments env docsMin (overwrite || !catalogTableExists)
  let filtered := docsMin.filter (fun d => !(pd.1.contains d.metadata.source))
  { skipSources := pd.1
    catalogRecords := pd.2
    filteredRawDocs := filtered
    chunks := enhanceDocumentsWithMetadata (filtered.flatMap split) pd.2 }

/-- Failure of the per-document pipeline for one source, as claim C6
describes it: the hashing read throws, or (the source is new and) metadata
extraction or overview generation throws. -/
def docProcessingFails (env : IndexEnv) (skipExistsCheck : Bool) (s : String) (ds : List Chunk) : Prop :=
  env.hashOf s = none ∨
    (∃ h, env.hashOf s = some h ∧ (if skipExistsCheck then false else env.catalogHas h) = false ∧
      (env.extractMeta s (joinWithSpace (ds.map (fun d => d.pageContent))) = none ∨
        env.overview s = none))

/-! ### Retrieval tools (`tools/operations/*.ts`) -/

/-- The flat metadata payload of a similarity-search result, as the filter
code of the search tools reads it. -/
structure ResultMetadata where
  source : Option String := none
  project : Option String := none
  discipline : Option String := none
  drawingNumber : Option String := none
  drawingType : Option String := none
  phase : Option String := none
deriving Repr, DecidableEq

/-- A similarity-search result.  The metadata is optional because the
filter code guards on `!result.metadata`; results produced by the pipeline
(langchain documents) always carry a metadata object. -/
structure SearchResult where
  pageContent : String := ""
  metadata : Option ResultMetadata := none
deriving Repr, DecidableEq

/-- Parameters of `chunks_search` (`ChunksSearchParams`); the optional
filters. -/
structure ChunksSearchParams where
  text : String := ""
  source : Option String := none
  project : Option String := none
  discipline : Option String := none
  drawingNumber : Option String := none
  drawingType : Option String := none
  phase : Option String := none

/-- A search-tool response: the JSON payload serializes the filtered result
list.  `isError` is the flag of the MCP tool response. -/
structure SearchToolResponse where
  results : List SearchResult
  isError : Bool
deriving Repr, DecidableEq

/-- The filter predicate of `ChunksSearchTool.execute`, translated
early-return by early-return: a result without metadata is dropped, then
each provided (truthy) filter must match by strict equality. -/
def chunkFilterPred (params : ChunksSearchParams) (result : SearchResult) : Bool :=
  match result.metadata with
  | none => false
  | some md =>
    if truthyOpt params.source && !(md.source == params.source) then false
    else if truthyOpt params.project && !(md.project == params.project) then false
    else if truthyOpt params.discipline && !(md.discipline == params.discipline) then false
    else if truthyOpt params.drawingNumber && !(md.drawingNumber == params.drawingNumber) then false
    else if truthyOpt params.drawingType && !(md.drawingType == params.drawingType) then false
    else if truthyOpt params.phase && !(md.phase == params.phase) then false
    else true

/-- Model of `ChunksSearchTool.execute` given the similarity results the
retriever returned for the query text. -/
def chunksSearchExecute (params : ChunksSearchParams) (results : List SearchResult) :
    SearchToolResponse :=
  { results := results.filter (chunkFilterPred params), isError := false }

/-- Parameters of `all_chunks_search` (`BroadSearchParams`). -/
structure BroadSearchParams where
  text : String := ""
  project : Option String := none
  discipline : Option String := none
  drawingType : Option String := none
  phase : Option String := none

/-- The filter predicate of `BroadSearchTool.execute` (no `source` or
`drawingNumber` filter there). -/
def broadFilterPred (params : BroadSearchParams) (result : SearchResult) : Bool :=
  match result.metadata with
  | none => false
  | some md =>
    if truthyOpt params.project && !(md.project == params.project) then false
    else if truthyOpt params.discipline && !(md.discipline == params.discipline) then false
    else if truthyOpt params.drawingType && !(md.drawingType == params.drawingType) then false
    else if truthyOpt params.phase && !(md.phase == params.phase) then false
    else true

/-- Model of `BroadSearchTool.execute`: when at least one filter is truthy
the results are filtered, otherwise they are returned as they came back
from the retriever. -/
def broadSearchExecute (params : BroadSearchParams) (results : List SearchResult) :
    SearchToolResponse :=
  if truthyOpt params.project || truthyOpt params.discipline ||
      truthyOpt params.drawingType || truthyOpt params.phase then
    { results := results.filter (broadFilterPred params), isError := false }
  else
    { results := results, isError := false }

/-- What it means for a result's metadata to satisfy every provided chunk
filter by exact string equality (the specified post-filtering). -/
def satisfiesChunkFilters (params : ChunksSearchParams) (md : ResultMetadata) : Prop :=
  (truthyOpt params.source = true → md.source = params.source) ∧
  (truthyOpt params.project = true → md.project = params.project) ∧
  (truthyOpt params.discipline = true → md.discipline = params.discipline) ∧
  (truthyOpt params.drawingNumber = true → md.drawingNumber = params.drawingNumber) ∧
  (truthyOpt params.drawingType = true → md.drawingType = params.drawingType) ∧
  (truthyOpt params.phase = true → md.phase = params.phase)

/-- The broad-search counterpart of `satisfiesChunkFilters`. -/
def satisfiesBroadFilters (params : BroadSearchParams) (md : ResultMetadata) : Prop :=
  (truthyOpt params.project = true → md.project = params.project) ∧
  (truthyOpt params.discipline = true → md.discipline = params.discipline) ∧
  (truthyOpt params.drawingType = true → md.drawingType = params.drawingType) ∧
  (truthyOpt params.phase = true → md.phase = params.phase)

/-- Zero filters supplied to `chunks_search`. -/
def noChunkFilters (params : ChunksSearchParams) : Prop :=
  params.source = none ∧ params.project = none ∧ params.discipline = none ∧
    params.drawingNumber = none ∧ params.drawingType = none ∧ params.phase = none

/-- Zero filters supplied to `all_chunks_search`. -/
def noBroadFilters (params : BroadSearchParams) : Prop :=
  params.project = none ∧ params.discipline = none ∧
    params.drawingType = none ∧ params.phase = none

/-! ### Image search and connection setup -/

/-- Metadata payload of an image-collection result. -/
structure ImageMetadata where
  imagePath : Option String := none
  source : Option String := none
  page : Option Nat := none
  project : Option String := none
  discipline : Option String := none
  drawingNumber : Option String := none
  drawingType : Option String := none
deriving Repr, DecidableEq

/-- An image similarity-search result. -/
structure ImageResult where
  pageContent : String := ""
  metadata : Option ImageMetadata := none
deriving Repr, DecidableEq

/-- Parameters of `image_search`. -/
structure ImageSearchParams where
  description : String := ""
  source : Option String := none
  project : Option String := none
  discipline : Option String := none
  drawingType : Option String := none

/-- One entry of the formatted image response.  The floating-point
similarity string (`(1 - _distance).toFixed(2)`) is elided from the model;
claim C9 does not depend on it. -/
structure FormattedImage where
  imagePath : Option String
  source : Option String
  page : Nat
  project : Option String
  discipline : Option String
  drawingNumber : Option String
  drawingType : Option String
deriving Repr, DecidableEq

/-- Content of an image-search response: either a plain-text message or a
formatted result listing (the source serializes these to the single text
content item of the MCP response). -/
inductive ImageSearchContent
  | message (text : String)
  | listing (items : List FormattedImage)
deriving Repr, DecidableEq

/-- An image-search tool response. -/
structure ImageSearchResponse where
  content : ImageSearchContent
  isError : Bool
deriving Repr, DecidableEq

/-- The guidance text returned when the image vector store was never
initialized, verbatim from `ImageSearchTool.execute`. -/
def imageUnavailableText : String :=
  "Image search is not available. The image database has not been initialized.\n\n" ++
    "Please ensure that image extraction is enabled in the configuration and that " ++
    "the database has been seeded with images."

/-- The filter predicate of `ImageSearchTool.execute`. -/
def imageFilterPred (params : ImageSearchParams) (result : ImageResult) : Bool :=
  match result.metadata with
  | none => false
  | some md =>
    if truthyOpt params.source && !(md.source == params.source) then false
    else if truthyOpt params.project && !(md.project == params.project) then false
    else if truthyOpt params.discipline && !(md.discipline == params.discipline) then false
    else if truthyOpt params.drawingType && !(md.drawingType == params.drawingType) then false
    else true

/-- The response formatting of `ImageSearchTool.execute`
(`result.metadata.page || 1` defaults a falsy page to 1). -/
def formatImageResult (r : ImageResult) : FormattedImage :=
  let md := r.metadata.getD {}
  { imagePath := md.imagePath
    source := md.source
    page := match md.page with
      | some 0 => 1
      | some n => n
      | none => 1
    project := md.project
    discipline := md.discipline
    drawingNumber := md.drawingNumber
    drawingType := md.drawingType }

/-- Model of `ImageSearchTool.execute`.  The first argument is the module
state `imageVectorStore` (`none` when the image table could not be opened
at connection time); `invoke` abstracts the retriever call for the
description text. -/
def imageSearchExecute (store : Option Unit) (invoke : String → List ImageResult)
    (params : ImageSearchParams) : ImageSearchResponse :=
  match store with
  | none => { content := .message imageUnavailableText, isError := true }
  | some _ =>
    let results := invoke params.description
    let filtered := results.filter (imageFilterPred params)
    let formatted := filtered.map formatImageResult
    if formatted.isEmpty then
      { content := .message ("No matching images found for description: \"" ++ params.description ++
          "\". Try a different description or check your filters."), isError := false }
    else
      { content := .listing formatted, isError := false }

/-- A LanceDB table handle. -/
structure LanceTable where
  name : String
deriving Repr, DecidableEq

/-- The module state `connectToLanceDB` of `lancedb/client.ts` leaves
behind: the chunks and catalog stores are mandatory, the image store is
optional. -/
structure ConnectionState where
  chunksTable : LanceTable
  catalogTable : LanceTable
  imageTable : Option LanceTable
deriving Repr, DecidableEq

/-- Model of `connectToLanceDB`: each argument is the outcome of the
corresponding `openTable` call.  A failure opening the chunks or catalog
table is logged and rethrown (fatal); a failure opening the image table is
caught and merely leaves the image store unset. -/
def connectToLanceDB (chunksOpen catalogOpen imageOpen : Except String LanceTable) :
    Except String ConnectionState :=
  match chunksOpen with
  | .error e => .error e
  | .ok ct =>
    match catalogOpen with
    | .error e => .error e
    | .ok kt => .ok { chunksTable := ct, catalogTable := kt, imageTable := imageOpen.toOption }

/-! ### Lemmas about the merger -/

theorem mergeField_foldl_eq (f : DocumentMetadata → Option String) :
    ∀ (l : List DocumentMetadata) (acc : Option String),
      l.foldl (fun acc s => if truthyOpt (f s) then f s else acc) acc
        = match l.reverse.find? (fun s => truthyOpt (f s)) with
          | some s => f s
          | none => acc := by
  intro l
  induction l with
  | nil => intro acc; simp
  | cons a t ih =>
    intro acc
    simp only [List.foldl_cons, List.reverse_cons, List.find?_append]
    rw [ih]
    cases h : t.reverse.find? (fun s => truthyOpt (f s)) with
    | some s => simp [Option.or]
    | none =>
      simp only [Option.or_none]
      cases ht : truthyOpt (f a) with
      | true => simp [List.find?_cons, ht]
      | false => simp [List.find?_cons, ht]

theorem mergeField_eq (f : DocumentMetadata → Option String) (sources : List DocumentMetadata) :
    mergeField f sources = lastTruthyField f sources := by
  unfold mergeField lastTruthyField
  rw [mergeField_foldl_eq]

/-- Claim C1: `mergeMetadata` applied to sources in the order content-derived,
path-derived, AI-derived returns, for each field, the value of the last
source in which that field is truthy; on the concrete discipline examples,
the AI value `Electrical` wins, and with the AI discipline absent the
path value `Structural` wins. -/
theorem mergeMetadata_priority :
    (∀ sources : List DocumentMetadata,
      (mergeMetadata sources).project = lastTruthyField (fun s => s.project) sources ∧
      (mergeMetadata sources).discipline = lastTruthyField (fun s => s.discipline) sources ∧
      (mergeMetadata sources).drawingNumber = lastTruthyField (fun s => s.drawingNumber) sources ∧
      (mergeMetadata sources).drawingType = lastTruthyField (fun s => s.drawingType) sources ∧
      (mergeMetadata sources).phase = lastTruthyField (fun s => s.phase) sources ∧
      (mergeMetadata sources).documentType = lastTruthyField (fun s => s.documentType) sources ∧
      (mergeMetadata sources).revision = lastTruthyField (fun s => s.revision) sources ∧
      (mergeMetadata sources).«section» = lastTruthyField (fun s => s.«section») sources ∧
      (mergeMetadata sources).sheetNumber = lastTruthyField (fun s => s.sheetNumber) sources ∧
      (mergeMetadata sources).buildingArea = lastTruthyField (fun s => s.buildingArea) sources) ∧
    (mergeMetadata [{ discipline := some "General" }, { discipline := some "Structural" },
        { discipline := some "Electrical" }]).discipline = some "Electrical" ∧
    (mergeMetadata [{ discipline := some "General" }, { discipline := some "Structural" },
        {}]).discipline = some "Structural" := by
  refine ⟨fun sources => ?_, by decide, by decide⟩
  exact ⟨mergeField_eq _ _, mergeField_eq _ _, mergeField_eq _ _, mergeField_eq _ _,
    mergeField_eq _ _, mergeField_eq _ _, mergeField_eq _ _, mergeField_eq _ _,
    mergeField_eq _ _, mergeField_eq _ _⟩

/-- Claim C3: a `/TextDocs/` path whose filename starts with a `Division 9`
token is classified as a Specification, but its discipline comes out as
`Architectural`, not `Finishes`: in `getSpecificationDiscipline` the
`divNum === 9` branch sits after the `1..14 → Architectural` range check
and is unreachable. -/
theorem division9_specification_discipline :
    (extractMetadataFromPath "/TextDocs/Division 9 - Finishes.pdf").documentType
        = some "Specification" ∧
    (extractMetadataFromPath "/TextDocs/Division 9 - Finishes.pdf").discipline
        = some "Architectural" ∧
    (extractMetadataFromPath "/TextDocs/Division 09 - Finishes.pdf").documentType
        = some "Specification" ∧
    (extractMetadataFromPath "/TextDocs/Division 09 - Finishes.pdf").discipline
        = some "Architectural" ∧
    (extractMetadataFromPath "/TextDocs/Division 9 - Finishes.pdf").discipline
        ≠ some "Finishes" ∧
    getSpecificationDiscipline "9" = "Architectural" := by
  decide

/-! ### Lemmas about the chunk enricher -/

theorem metadataBySource_foldl (records : List CatalogRecord) :
    ∀ (m : String → Option CatalogMetadata) (s : String),
      (records.foldl
          (fun m r => fun s => if s == r.metadata.source then some r.metadata else m s) m) s
        = match records.reverse.find? (fun r => s == r.metadata.source) with
          | some r => some r.metadata
          | none => m s := by
  induction records with
  | nil => intro m s; simp
  | cons a t ih =>
    intro m s
    simp only [List.foldl_cons, List.reverse_cons, List.find?_append]
    rw [ih]
    cases h : t.reverse.find? (fun r => s == r.metadata.source) with
    | some r => simp [Option.or]
    | none =>
      simp only [Option.or_none]
      cases hs : (s == a.metadata.source) with
      | true => simp [List.find?_cons, hs]
      | false => simp [List.find?_cons, hs]

theorem metadataBySource_eq (records : List CatalogRecord) (s : String) :
    metadataBySource records s
      = match records.reverse.find? (fun r => s == r.metadata.source) with
        | some r => some r.metadata
        | none => none := by
  unfold metadataBySource
  rw [metadataBySource_foldl]

theorem metadataBySource_some {records : List CatalogRecord} {s : String} {cat : CatalogMetadata}
    (h : metadataBySource records s = some cat) :
    cat.source = s ∧ ∃ r ∈ records, r.metadata = cat := by
  rw [metadataBySource_eq] at h
  cases hf : records.reverse.find? (fun r => s == r.metadata.source) with
  | none => rw [hf] at h; exact absurd h (by simp)
  | some r =>
    rw [hf] at h
    have hcat : r.metadata = cat := by exact Option.some.inj h
    have hpred := List.find?_some hf
    have hmem := List.mem_of_find?_eq_some hf
    refine ⟨?_, r, List.mem_reverse.mp hmem, hcat⟩
    rw [← hcat]
    exact (beq_iff_eq.mp hpred).symm

theorem metadataBySource_none_of {records : List CatalogRecord} {s : String}
    (h : ∀ r ∈ records, r.metadata.source ≠ s) : metadataBySource records s = none := by
  rw [metadataBySource_eq]
  have : records.reverse.find? (fun r => s == r.metadata.source) = none := by
    rw [List.find?_eq_none]
    intro r hr
    simp only [beq_iff_eq]
    exact fun he => h r (List.mem_reverse.mp hr) he.symm
  rw [this]

theorem enhanceOne_pageContent (records : List CatalogRecord) (doc : Chunk) :
    (enhanceOne records doc).pageContent = doc.pageContent := by
  unfold enhanceOne
  cases metadataBySource records doc.metadata.source <;> rfl

theorem enhanceOne_source (records : List CatalogRecord) (doc : Chunk) :
    (enhanceOne records doc).metadata.source = doc.metadata.source := by
  unfold enhanceOne
  cases h : metadataBySource records doc.metadata.source with
  | none => rfl
  | some cat => exact (metadataBySource_some h).1

/-- Claim C7: `enhanceDocumentsWithMetadata` maps every chunk through the
per-chunk enrichment: a chunk whose source has a catalog entry gets the
catalog record's metadata with its own `loc` preserved; a chunk whose
source has no catalog entry is returned untouched. -/
theorem enhance_replaces_metadata_preserves_loc :
    (∀ (docs : List Chunk) (records : List CatalogRecord),
      enhanceDocumentsWithMetadata docs records = docs.map (enhanceOne records)) ∧
    (∀ (records : List CatalogRecord) (doc : Chunk) (cat : CatalogMetadata),
      metadataBySource records doc.metadata.source = some cat →
      enhanceOne records doc =
        { pageContent := doc.pageContent,
          metadata := { source := cat.source, loc := doc.metadata.loc,
                        hash := some cat.hash, doc := cat.doc } } ∧
        cat.source = doc.metadata.source ∧ ∃ r ∈ records, r.metadata = cat) ∧
    (∀ (records : List CatalogRecord) (doc : Chunk),
      metadataBySource records doc.metadata.source = none → enhanceOne records doc = doc) := by
  refine ⟨fun _ _ => rfl, ?_, ?_⟩
  · intro records doc cat h
    refine ⟨?_, (metadataBySource_some h).1, (metadataBySource_some h).2⟩
    unfold enhanceOne
    rw [h]
  · intro records doc h
    unfold enhanceOne
    rw [h]

/-- Witness for C7 at a concrete record list: a chunk of the cataloged
source is enriched with the catalog metadata and keeps its `loc`; a chunk
of an unknown source is untouched. -/
theorem enhance_replaces_metadata_preserves_loc_witness :
    enhanceOne [{ pageContent := "ov", metadata := { source := "a.pdf", hash := "h1", doc := {} } }]
        { pageContent := "chunk text", metadata := { source := "a.pdf", loc := some "page 1" } }
      = { pageContent := "chunk text",
          metadata := { source := "a.pdf", loc := some "page 1", hash := some "h1", doc := {} } } ∧
    enhanceOne [{ pageContent := "ov", metadata := { source := "a.pdf", hash := "h1", doc := {} } }]
        { pageContent := "other", metadata := { source := "b.pdf", loc := some "page 2" } }
      = { pageContent := "other", metadata := { source := "b.pdf", loc := some "page 2" } } := by
  constructor
  · have h1 : metadataBySource
        [{ pageContent := "ov", metadata := { source := "a.pdf", hash := "h1", doc := {} } }]
        ({ pageContent := "chunk text",
           metadata := { source := "a.pdf", loc := some "page 1" } } : Chunk).metadata.source
        = some { source := "a.pdf", hash := "h1", doc := {} } := by decide
    exact (enhance_replaces_metadata_preserves_loc.2.1 _ _ _ h1).1
  · have h2 : metadataBySource
        [{ pageContent := "ov", metadata := { source := "a.pdf", hash := "h1", doc := {} } }]
        ({ pageContent := "other",
           metadata := { source := "b.pdf", loc := some "page 2" } } : Chunk).metadata.source
        = none := by decide
    exact enhance_replaces_metadata_preserves_loc.2.2 _ _ h2

/-- Claim C10: the enricher never drops, duplicates or reorders chunks, and
every chunk's page content and source are unchanged; only the metadata
object may be replaced. -/
theorem enhance_preserves_length_order_content_source :
    ∀ (docs : List Chunk) (records : List CatalogRecord),
      (enhanceDocumentsWithMetadata docs records).length = docs.length ∧
      (enhanceDocumentsWithMetadata docs records).map (fun d => d.pageContent)
          = docs.map (fun d => d.pageContent) ∧
      (enhanceDocumentsWithMetadata docs records).map (fun d => d.metadata.source)
          = docs.map (fun d => d.metadata.source) := by
  intro docs records
  refine ⟨by simp [enhanceDocumentsWithMetadata], ?_, ?_⟩
  · unfold enhanceDocumentsWithMetadata
    rw [List.map_map]
    exact List.map_congr_left (fun d _ => enhanceOne_pageContent records d)
  · unfold enhanceDocumentsWithMetadata
    rw [List.map_map]
    exact List.map_congr_left (fun d _ => enhanceOne_source records d)

/-! ### Lemmas about the seeding pipeline -/

theorem mem_firstOccurrencesAux :
    ∀ (l seen : List String) (s : String),
      s ∈ firstOccurrencesAux seen l ↔ s ∈ l ∧ s ∉ seen := by
  intro l
  induction l with
  | nil => intro seen s; simp [firstOccurrencesAux]
  | cons a t ih =>
    intro seen s
    by_cases hc : a ∈ seen
    · have hb : seen.contains a = true := by simp [hc]
      simp only [firstOccurrencesAux, hb, if_true, List.mem_cons]
      rw [ih]
      constructor
      · rintro ⟨hs, hns⟩; exact ⟨Or.inr hs, hns⟩
      · rintro ⟨hsa | hs, hns⟩
        · exact absurd (hsa ▸ hc) hns
        · exact ⟨hs, hns⟩
    · have hb : seen.contains a = false := by simp [hc]
      simp only [firstOccurrencesAux, hb, Bool.false_eq_true, if_false, List.mem_cons]
      rw [ih]
      simp only [List.mem_append, List.mem_singleton]
      constructor
      · rintro (hsa | ⟨hs, hns⟩)
        · exact ⟨Or.inl hsa, hsa ▸ hc⟩
        · exact ⟨Or.inr hs, fun hmem => hns (Or.inl hmem)⟩
      · rintro ⟨hsa | hs, hns⟩
        · exact Or.inl hsa
        · by_cases heq : s = a
          · exact Or.inl heq
          · exact Or.inr ⟨hs, fun hx => (hx.elim hns (fun h => heq h))⟩

theorem mem_firstOccurrences (l : List String) (s : String) :
    s ∈ firstOccurrences l ↔ s ∈ l := by
  unfold firstOccurrences
  rw [mem_firstOccurrencesAux]
  simp

theorem mem_groupBySource {docs : List Chunk} {e : String × List Chunk} :
    e ∈ groupBySource docs
      ↔ e.1 ∈ sourcesOf docs ∧ e.2 = docs.filter (fun d => d.metadata.source == e.1) := by
  unfold groupBySource
  rw [List.mem_map]
  constructor
  · rintro ⟨s, hs, rfl⟩
    exact ⟨(mem_firstOccurrences _ _).mp hs, rfl⟩
  · rintro ⟨hs, he⟩
    refine ⟨e.1, (mem_firstOccurrences _ _).mpr hs, ?_⟩
    cases e with
    | mk s ds => simp only at he ⊢; rw [he]

section ProcessStepLemmas

variable {env : IndexEnv} {sk : Bool} {acc : List String × List CatalogRecord}
variable {e : String × List Chunk} {hash : String} {md : DocumentMetadata} {ov : String}

theorem processStep_none (h : env.hashOf e.1 = none) : processStep env sk acc e = acc := by
  simp [processStep, h]

theorem processStep_skip (h1 : env.hashOf e.1 = some hash)
    (h2 : (if sk then false else env.catalogHas hash) = true) :
    processStep env sk acc e = (acc.1 ++ [e.1], acc.2) := by
  simp [processStep, h1, h2]

theorem processStep_fail_extract (h1 : env.hashOf e.1 = some hash)
    (h2 : (if sk then false else env.catalogHas hash) = false)
    (h3 : env.extractMeta e.1 (joinWithSpace (e.2.map (fun d => d.pageContent))) = none) :
    processStep env sk acc e = acc := by
  simp [processStep, h1, h2, h3]

theorem processStep_fail_overview (h1 : env.hashOf e.1 = some hash)
    (h2 : (if sk then false else env.catalogHas hash) = false)
    (h3 : env.extractMeta e.1 (joinWithSpace (e.2.map (fun d => d.pageContent))) = some md)
    (h4 : env.overview e.1 = none) :
    processStep env sk acc e = acc := by
  simp [processStep, h1, h2, h3, h4]

theorem processStep_record (h1 : env.hashOf e.1 = some hash)
    (h2 : (if sk then false else env.catalogHas hash) = false)
    (h3 : env.extractMeta e.1 (joinWithSpace (e.2.map (fun d => d.pageContent))) = some md)
    (h4 : env.overview e.1 = some ov) :
    processStep env sk acc e
      = (acc.1, acc.2 ++ [{ pageContent := ov,
                            metadata := { source := e.1, hash := hash, doc := md } }]) := by
  simp [processStep, h1, h2, h3, h4]

theorem skipDecision_of_none {s : String} (h : env.hashOf s = none) :
    skipDecision env sk s = false := by
  simp [skipDecision, h]

theorem skipDecision_of_some {s : String} (h : env.hashOf s = some hash) :
    skipDecision env sk s = (if sk then false else env.catalogHas hash) := by
  simp [skipDecision, h]

theorem recordFor_of_none (h : env.hashOf e.1 = none) : recordFor env sk e = none := by
  simp [recordFor, h]

theorem recordFor_of_skip (h1 : env.hashOf e.1 = some hash)
    (h2 : (if sk then false else env.catalogHas hash) = true) :
    recordFor env sk e = none := by
  simp [recordFor, h1, h2]

theorem recordFor_of_extract_none (h1 : env.hashOf e.1 = some hash)
    (h2 : (if sk then false else env.catalogHas hash) = false)
    (h3 : env.extractMeta e.1 (joinWithSpace (e.2.map (fun d => d.pageContent))) = none) :
    recordFor env sk e = none := by
  simp [recordFor, h1, h2, h3]

theorem recordFor_of_overview_none (h1 : env.hashOf e.1 = some hash)
    (h2 : (if sk then false else env.catalogHas hash) = false)
    (h3 : env.extractMeta e.1 (joinWithSpace (e.2.map (fun d => d.pageContent))) = some md)
    (h4 : env.overview e.1 = none) :
    recordFor env sk e = none := by
  simp [recordFor, h1, h2, h3, h4]

theorem recordFor_of_success (h1 : env.hashOf e.1 = some hash)
    (h2 : (if sk then false else env.catalogHas hash) = false)
    (h3 : env.extractMeta e.1 (joinWithSpace (e.2.map (fun d => d.pageContent))) = some md)
    (h4 : env.overview e.1 = some ov) :
    recordFor env sk e
      = some { pageContent := ov, metadata := { source := e.1, hash := hash, doc := md } } := by
  simp [recordFor, h1, h2, h3, h4]

end ProcessStepLemmas

theorem processStep_foldl (env : IndexEnv) (sk : Bool) :
    ∀ (l : List (String × List Chunk)) (a : List String) (b : List CatalogRecord),
      l.foldl (processStep env sk) (a, b)
        = (a ++ l.filterMap (fun e => if skipDecision env sk e.1 then some e.1 else none),
           b ++ l.filterMap (recordFor env sk)) := by
  intro l
  induction l with
  | nil => intro a b; simp
  | cons e t ih =>
    intro a b
    rw [List.foldl_cons, List.filterMap_cons, List.filterMap_cons]
    cases h1 : env.hashOf e.1 with
    | none =>
      rw [processStep_none h1, ih, skipDecision_of_none h1, recordFor_of_none h1]
      simp
    | some hash =>
      cases h2 : (if sk then false else env.catalogHas hash) with
      | true =>
        rw [processStep_skip h1 h2, ih, skipDecision_of_some h1, h2,
          recordFor_of_skip h1 h2]
        simp
      | false =>
        cases h3 : env.extractMeta e.1 (joinWithSpace (e.2.map (fun d => d.pageContent))) with
        | none =>
          rw [processStep_fail_extract h1 h2 h3, ih, skipDecision_of_some h1, h2,
            recordFor_of_extract_none h1 h2 h3]
          simp
        | some md =>
          cases h4 : env.overview e.1 with
          | none =>
            rw [processStep_fail_overview h1 h2 h3 h4, ih, skipDecision_of_some h1, h2,
              recordFor_of_overview_none h1 h2 h3 h4]
            simp
          | some ov =>
            rw [processStep_record h1 h2 h3 h4, ih, skipDecision_of_some h1, h2,
              recordFor_of_success h1 h2 h3 h4]
            simp

theorem processDocuments_eq (env : IndexEnv) (docs : List Chunk) (sk : Bool) :
    processDocuments env docs sk
      = ((groupBySource docs).filterMap
            (fun e => if skipDecision env sk e.1 then some e.1 else none),
         (groupBySource docs).filterMap (recordFor env sk)) := by
  unfold processDocuments
  rw [processStep_foldl]
  simp

theorem recordFor_source {env : IndexEnv} {sk : Bool} {e : String × List Chunk}
    {r : CatalogRecord} (h : recordFor env sk e = some r) : r.metadata.source = e.1 := by
  cases h1 : env.hashOf e.1 with
  | none => rw [recordFor_of_none h1] at h; cases h
  | some hash =>
    cases h2 : (if sk then false else env.catalogHas hash) with
    | true => rw [recordFor_of_skip h1 h2] at h; cases h
    | false =>
      cases h3 : env.extractMeta e.1 (joinWithSpace (e.2.map (fun d => d.pageContent))) with
      | none => rw [recordFor_of_extract_none h1 h2 h3] at h; cases h
      | some md =>
        cases h4 : env.overview e.1 with
        | none => rw [recordFor_of_overview_none h1 h2 h3 h4] at h; cases h
        | some ov =>
          rw [recordFor_of_success h1 h2 h3 h4] at h
          rw [← Option.some.inj h]

theorem recordFor_none_of_skip {env : IndexEnv} {sk : Bool} {e : String × List Chunk}
    (h : skipDecision env sk e.1 = true) : recordFor env sk e = none := by
  cases h1 : env.hashOf e.1 with
  | none => exact recordFor_of_none h1
  | some hash =>
    rw [skipDecision_of_some h1] at h
    exact recordFor_of_skip h1 h

theorem mem_skipSources {env : IndexEnv} {sk : Bool} {docs : List Chunk} {s : String} :
    s ∈ (processDocuments env docs sk).1
      ↔ s ∈ sourcesOf docs ∧ skipDecision env sk s = true := by
  rw [processDocuments_eq]
  simp only [List.mem_filterMap]
  constructor
  · rintro ⟨e, he, hif⟩
    have h1 := (mem_groupBySource.mp he).1
    by_cases hd : skipDecision env sk e.1 = true
    · rw [if_pos hd] at hif
      have : e.1 = s := Option.some.inj hif
      exact ⟨this ▸ h1, this ▸ hd⟩
    · rw [if_neg hd] at hif; cases hif
  · rintro ⟨hs, hd⟩
    refine ⟨(s, docs.filter (fun d => d.metadata.source == s)), ?_, ?_⟩
    · exact mem_groupBySource.mpr ⟨hs, rfl⟩
    · simp only
      rw [if_pos hd]

theorem mem_catalogRecords {env : IndexEnv} {sk : Bool} {docs : List Chunk} {r : CatalogRecord} :
    r ∈ (processDocuments env docs sk).2
      ↔ ∃ s ∈ sourcesOf docs,
          recordFor env sk (s, docs.filter (fun d => d.metadata.source == s)) = some r := by
  rw [processDocuments_eq]
  simp only [List.mem_filterMap]
  constructor
  · rintro ⟨e, he, hr⟩
    obtain ⟨h1, h2⟩ := mem_groupBySource.mp he
    refine ⟨e.1, h1, ?_⟩
    have : e = (e.1, docs.filter (fun d => d.metadata.source == e.1)) := by
      cases e with
      | mk s ds => simp only at h2 ⊢; rw [h2]
    rw [← this]
    exact hr
  · rintro ⟨s, hs, hr⟩
    exact ⟨(s, docs.filter (fun d => d.metadata.source == s)),
      mem_groupBySource.mpr ⟨hs, rfl⟩, hr⟩

theorem sourcesOf_minimize (docs : List Chunk) :
    sourcesOf (minimizeDocs docs) = sourcesOf docs := by
  unfold sourcesOf minimizeDocs
  rw [List.map_map]
  rfl

/-- Claim C2: re-running the indexer over an unchanged file set (catalog table
exists, overwrite flag not set) stages zero catalog records and zero
chunks: every source whose hash already has a catalog record lands in the
skip set, the filtered document list is empty, and nothing reaches the
splitter or the embedding store. -/
theorem indexer_idempotent_on_unchanged
    (env : IndexEnv) (split : Chunk → List Chunk) (rawDocs : List Chunk) :
    ((∀ s ∈ sourcesOf rawDocs, ∃ h, env.hashOf s = some h ∧ env.catalogHas h = true) →
      (seedPipeline env split rawDocs false true).catalogRecords = [] ∧
      (seedPipeline env split rawDocs false true).filteredRawDocs = [] ∧
      (seedPipeline env split rawDocs false true).chunks = [] ∧
      (∀ s ∈ sourcesOf rawDocs, s ∈ (seedPipeline env split rawDocs false true).skipSources) ∧
      (∀ s ∈ (seedPipeline env split rawDocs false true).skipSources, s ∈ sourcesOf rawDocs)) ∧
    (∀ s h, s ∈ sourcesOf rawDocs → env.hashOf s = some h → env.catalogHas h = true →
      s ∈ (seedPipeline env split rawDocs false true).skipSources ∧
      (∀ r ∈ (seedPipeline env split rawDocs false true).catalogRecords,
        r.metadata.source ≠ s) ∧
      (∀ d ∈ (seedPipeline env split rawDocs false true).filteredRawDocs,
        d.metadata.source ≠ s)) := by
  constructor
  · intro hall
    have hmin : ∀ s ∈ sourcesOf (minimizeDocs rawDocs), skipDecision env false s = true := by
      intro s hs
      rw [sourcesOf_minimize] at hs
      obtain ⟨h, hh, hc⟩ := hall s hs
      rw [skipDecision_of_some hh]
      simpa using hc
    have hskipmem : ∀ s, s ∈ (processDocuments env (minimizeDocs rawDocs) false).1
        ↔ s ∈ sourcesOf rawDocs := by
      intro s
      rw [mem_skipSources, sourcesOf_minimize]
      constructor
      · rintro ⟨hs, _⟩; exact hs
      · intro hs
        exact ⟨hs, hmin s (by rw [sourcesOf_minimize]; exact hs)⟩
    have hrec : (processDocuments env (minimizeDocs rawDocs) false).2 = [] := by
      rw [processDocuments_eq]
      simp only
      rw [List.filterMap_eq_nil_iff]
      intro e he
      exact recordFor_none_of_skip (hmin e.1 (mem_groupBySource.mp he).1)
    have hfil : (minimizeDocs rawDocs).filter
        (fun d => !((processDocuments env (minimizeDocs rawDocs) false).1.contains
          d.metadata.source)) = [] := by
      rw [List.filter_eq_nil_iff]
      intro d hd
      have hsrc : d.metadata.source ∈ sourcesOf (minimizeDocs rawDocs) :=
        List.mem_map_of_mem _ hd
      have hmem : d.metadata.source ∈ (processDocuments env (minimizeDocs rawDocs) false).1 :=
        (hskipmem _).mpr (by rw [← sourcesOf_minimize rawDocs]; exact hsrc)
      simp [hmem]
    refine ⟨?_, ?_, ?_, ?_, ?_⟩ <;>
      simp only [seedPipeline, Bool.not_true, Bool.or_false]
    · exact hrec
    · exact hfil
    · rw [hfil, hrec]
      rfl
    · intro s hs
      exact (hskipmem s).mpr hs
    · intro s hs
      exact (hskipmem s).mp hs
  · intro s h hs hh hc
    have hdec : skipDecision env false s = true := by
      rw [skipDecision_of_some hh]
      simpa using hc
    have hskip : s ∈ (processDocuments env (minimizeDocs rawDocs) false).1 :=
      mem_skipSources.mpr ⟨by rw [sourcesOf_minimize]; exact hs, hdec⟩
    refine ⟨?_, ?_, ?_⟩ <;>
      simp only [seedPipeline, Bool.not_true, Bool.or_false]
    · exact hskip
    · intro r hr heq
      obtain ⟨s2, _, hrec⟩ := mem_catalogRecords.mp hr
      have hsrc : r.metadata.source = s2 := recordFor_source hrec
      rw [heq] at hsrc
      rw [← hsrc] at hrec
      rw [recordFor_none_of_skip hdec] at hrec
      cases hrec
    · intro d hd heq
      have hpred := (List.mem_filter.mp hd).2
      rw [heq] at hpred
      simp [hskip] at hpred

/-- Witness for C2: a one-document corpus whose hash is already cataloged
produces no catalog records, no surviving documents and no chunks, and the
source is skipped. -/
theorem indexer_idempotent_on_unchanged_witness :
    (seedPipeline
        { hashOf := fun _ => some "h1", catalogHas := fun _ => true,
          extractMeta := fun _ _ => some {}, overview := fun _ => some "ov" }
        (fun d => [d])
        [{ pageContent := "text", metadata := { source := "a.pdf", loc := some "l1" } }]
        false true).catalogRecords = [] ∧
    (seedPipeline
        { hashOf := fun _ => some "h1", catalogHas := fun _ => true,
          extractMeta := fun _ _ => some {}, overview := fun _ => some "ov" }
        (fun d => [d])
        [{ pageContent := "text", metadata := { source := "a.pdf", loc := some "l1" } }]
        false true).chunks = [] ∧
    "a.pdf" ∈ (seedPipeline
        { hashOf := fun _ => some "h1", catalogHas := fun _ => true,
          extractMeta := fun _ _ => some {}, overview := fun _ => some "ov" }
        (fun d => [d])
        [{ pageContent := "text", metadata := { source := "a.pdf", loc := some "l1" } }]
        false true).skipSources := by
  have h := (indexer_idempotent_on_unchanged
    { hashOf := fun _ => some "h1", catalogHas := fun _ => true,
      extractMeta := fun _ _ => some {}, overview := fun _ => some "ov" }
    (fun d => [d])
    [{ pageContent := "text", metadata := { source := "a.pdf", loc := some "l1" } }]).1
    (by intro s hs; exact ⟨"h1", rfl, rfl⟩)
  exact ⟨h.1, h.2.2.1, h.2.2.2.1 "a.pdf" (by decide)⟩

/-- Claim C6: when the per-document pipeline fails for one source (hashing,
metadata extraction or overview generation throws), the error is swallowed:
the source is not skipped, no catalog record is staged for it, its
documents survive the skip filter, its chunks pass through enrichment
untouched, and the outcome for every other source is exactly what its own
hash/extract/overview data dictates. -/
theorem seed_single_document_failure
    (env : IndexEnv) (split : Chunk → List Chunk) (rawDocs : List Chunk) (s : String)
    (hfail : docProcessingFails env false s
      ((minimizeDocs rawDocs).filter (fun d => d.metadata.source == s))) :
    s ∉ (seedPipeline env split rawDocs false true).skipSources ∧
    (∀ r ∈ (seedPipeline env split rawDocs false true).catalogRecords,
      r.metadata.source ≠ s) ∧
    (∀ d ∈ minimizeDocs rawDocs, d.metadata.source = s →
      d ∈ (seedPipeline env split rawDocs false true).filteredRawDocs) ∧
    (∀ c ∈ (seedPipeline env split rawDocs false true).filteredRawDocs.flatMap split,
      c.metadata.source = s → c ∈ (seedPipeline env split rawDocs false true).chunks) ∧
    (∀ s2, s2 ∈ (seedPipeline env split rawDocs false true).skipSources
      ↔ s2 ∈ sourcesOf rawDocs ∧ skipDecision env false s2 = true) ∧
    (∀ r, r ∈ (seedPipeline env split rawDocs false true).catalogRecords
      ↔ ∃ s2 ∈ sourcesOf rawDocs,
          recordFor env false
            (s2, (minimizeDocs rawDocs).filter (fun d => d.metadata.source == s2))
            = some r) := by
  have hskipdec : skipDecision env false s = false := by
    rcases hfail with hnone | ⟨h, hh, hc, _⟩
    · exact skipDecision_of_none hnone
    · rw [skipDecision_of_some hh]
      simpa using hc
  have hrecnone : recordFor env false
      (s, (minimizeDocs rawDocs).filter (fun d => d.metadata.source == s)) = none := by
    rcases hfail with hnone | ⟨h, hh, hc, hor⟩
    · exact recordFor_of_none hnone
    · rcases hor with hex | hov
      · exact recordFor_of_extract_none hh hc hex
      · cases hex2 : env.extractMeta s (joinWithSpace
            (((minimizeDocs rawDocs).filter (fun d => d.metadata.source == s)).map
              (fun d => d.pageContent))) with
        | none => exact recordFor_of_extract_none hh hc hex2
        | some md => exact recordFor_of_overview_none hh hc hex2 hov
  have hskipmem : ∀ s2, s2 ∈ (processDocuments env (minimizeDocs rawDocs) false).1
      ↔ s2 ∈ sourcesOf rawDocs ∧ skipDecision env false s2 = true := by
    intro s2
    rw [mem_skipSources, sourcesOf_minimize]
  have hrecmem : ∀ r, r ∈ (processDocuments env (minimizeDocs rawDocs) false).2
      ↔ ∃ s2 ∈ sourcesOf rawDocs,
          recordFor env false
            (s2, (minimizeDocs rawDocs).filter (fun d => d.metadata.source == s2))
            = some r := by
    intro r
    rw [mem_catalogRecords]
    constructor
    · rintro ⟨s2, hs2, hr⟩
      exact ⟨s2, (sourcesOf_minimize rawDocs) ▸ hs2, hr⟩
    · rintro ⟨s2, hs2, hr⟩
      exact ⟨s2, (sourcesOf_minimize rawDocs).symm ▸ hs2, hr⟩
  have hnotskip : s ∉ (processDocuments env (minimizeDocs rawDocs) false).1 := by
    intro hmem
    have := ((hskipmem s).mp hmem).2
    rw [hskipdec] at this
    cases this
  have hnorec : ∀ r ∈ (processDocuments env (minimizeDocs rawDocs) false).2,
      r.metadata.source ≠ s := by
    intro r hr heq
    obtain ⟨s2, _, hrec⟩ := (hrecmem r).mp hr
    have hs2 : r.metadata.source = s2 := recordFor_source hrec
    rw [heq] at hs2
    rw [← hs2] at hrec
    rw [hrecnone] at hrec
    cases hrec
  refine ⟨?_, ?_, ?_, ?_, ?_, ?_⟩ <;>
    simp only [seedPipeline, Bool.not_true, Bool.or_false]
  · exact hnotskip
  · exact hnorec
  · intro d hd hds
    rw [List.mem_filter]
    refine ⟨hd, ?_⟩
    rw [hds]
    simp [hnotskip]
  · intro c hc hcs
    unfold enhanceDocumentsWithMetadata
    rw [List.mem_map]
    refine ⟨c, hc, ?_⟩
    unfold enhanceOne
    rw [hcs, metadataBySource_none_of hnorec]
  · exact hskipmem
  · exact hrecmem

/-- Witness for C6: a source whose metadata extraction fails is neither
skipped nor cataloged, and its document remains in the filtered set. -/
theorem seed_single_document_failure_witness :
    "a.pdf" ∉ (seedPipeline
        { hashOf := fun _ => some "h1", catalogHas := fun _ => false,
          extractMeta := fun _ _ => none, overview := fun _ => some "ov" }
        (fun d => [d])
        [{ pageContent := "text", metadata := { source := "a.pdf", loc := some "l1" } }]
        false true).skipSources ∧
    ({ pageContent := "text", metadata := { source := "a.pdf", loc := some "l1" } } : Chunk)
      ∈ (seedPipeline
        { hashOf := fun _ => some "h1", catalogHas := fun _ => false,
          extractMeta := fun _ _ => none, overview := fun _ => some "ov" }
        (fun d => [d])
        [{ pageContent := "text", metadata := { source := "a.pdf", loc := some "l1" } }]
        false true).filteredRawDocs := by
  have h := seed_single_document_failure
    { hashOf := fun _ => some "h1", catalogHas := fun _ => false,
      extractMeta := fun _ _ => none, overview := fun _ => some "ov" }
    (fun d => [d])
    [{ pageContent := "text", metadata := { source := "a.pdf", loc := some "l1" } }]
    "a.pdf"
    (Or.inr ⟨"h1", rfl, rfl, Or.inl rfl⟩)
  exact ⟨h.1, h.2.2.1 _ (by decide) rfl⟩

/-! ### Lemmas about the path extractor -/

theorem docTypePhase_drawing {np : String} (fn : String) (md : DocumentMetadata)
    (h : strIncludes np "/Drawings/" = true) :
    docTypePhase np fn md = { md with documentType := some "Drawing" } := by
  unfold docTypePhase
  rw [h]
  rfl

theorem docTypePhase_project (np fn : String) (md : DocumentMetadata) :
    (docTypePhase np fn md).project = md.project := by
  unfold docTypePhase
  repeat' split <;> try rfl

theorem projectPhase_shape (pp : List String) (md : DocumentMetadata) :
    ∃ pr, projectPhase pp md = { md with project := pr } := by
  unfold projectPhase
  cases h : pp.findIdx? isProjectSegment with
  | none => exact ⟨some "PDFdrawings", rfl⟩
  | some idx =>
    dsimp only
    by_cases h2 : idx + 1 < pp.length
    · rw [if_pos h2]
      by_cases h3 : (toLowerStr (pp.getD idx "") != "pdfdrawings-mcp") = true
      · rw [if_pos h3]; exact ⟨some (pp.getD (idx + 1) ""), rfl⟩
      · rw [if_neg h3]; exact ⟨some "PDFdrawings", rfl⟩
    · rw [if_neg h2]; exact ⟨some "PDFdrawings", rfl⟩

theorem projectPhase_project (pp : List String) (md : DocumentMetadata) :
    (projectPhase pp md).project
      = some (match pp.findIdx? isProjectSegment with
        | some idx =>
          if idx + 1 < pp.length then
            if toLowerStr (pp.getD idx "") != "pdfdrawings-mcp" then pp.getD (idx + 1) ""
            else "PDFdrawings"
          else "PDFdrawings"
        | none => "PDFdrawings") := by
  unfold projectPhase
  cases h : pp.findIdx? isProjectSegment with
  | none => rfl
  | some idx =>
    dsimp only
    by_cases h2 : idx + 1 < pp.length
    · rw [if_pos h2, if_pos h2]
      by_cases h3 : (toLowerStr (pp.getD idx "") != "pdfdrawings-mcp") = true
      · rw [if_pos h3, if_pos h3]
      · rw [if_neg h3, if_neg h3]
    · rw [if_neg h2, if_neg h2]

theorem applySheet_project (sheet : String) (md : DocumentMetadata) :
    (applySheet sheet md).project = md.project := by
  unfold applySheet
  repeat' split <;> try rfl

theorem applyParts_project (dn : String) (md : DocumentMetadata) :
    (applyParts dn md).project = md.project := by
  unfold applyParts
  dsimp only
  split
  · split
    · rw [applySheet_project]
      split <;> rfl
    · split <;> rfl
  · rfl

theorem applyDisciplineCode_project (dn : String) (md : DocumentMetadata) :
    (applyDisciplineCode dn md).project = md.project := by
  unfold applyDisciplineCode
  repeat' split <;> try rfl

theorem drawingPhase_project (dn : String) (md : DocumentMetadata) :
    (drawingPhase dn md).project = md.project := by
  unfold drawingPhase
  split
  · rw [applyParts_project, applyDisciplineCode_project]
  · rfl

theorem drawingPhase_S_46_1001 (md : DocumentMetadata) (h : md.documentType = some "Drawing") :
    drawingPhase "S-46-1001" md
      = { md with discipline := some "Structural", buildingArea := some "46",
                  sheetNumber := some "1001" } := by
  have hc : (("S-46-1001" : String) != "" && (md.documentType == some "Drawing")) = true := by
    rw [h]; rfl
  unfold drawingPhase
  rw [if_pos hc]
  rfl

theorem applyParts_drawingType_150 (dn : String) (md : DocumentMetadata)
    (hlen : (splitStr dn '-').length > 2)
    (h150 : (splitStr dn '-').getD 2 "" = "150") :
    (applyParts dn md).drawingType = some "Plans" := by
  unfold applyParts
  rw [if_pos (by omega : (splitStr dn '-').length > 1)]
  have h2 : (decide ((splitStr dn '-').length > 2) && ((splitStr dn '-').getD 2 "" != "")) = true := by
    rw [h150]
    simp [hlen]
  rw [if_pos h2, h150]
  rfl

theorem drawingPhase_drawingType_150 (dn : String) (md : DocumentMetadata)
    (hdoc : md.documentType = some "Drawing")
    (hlen : (splitStr dn '-').length > 2)
    (h150 : (splitStr dn '-').getD 2 "" = "150") :
    (drawingPhase dn md).drawingType = some "Plans" := by
  have hdn : (dn != "") = true := by
    have hne : dn ≠ "" := by
      intro hx
      rw [hx] at hlen
      have : (splitStr "" '-').length = 1 := by decide
      omega
    simpa using hne
  unfold drawingPhase
  rw [hdoc, hdn]
  simp only [beq_self_eq_true, Bool.and_self, if_true]
  exact applyParts_drawingType_150 dn _ hlen h150

/-- Claim C4: for every Drawing-classified path whose filename stem is
`S-46-1001`, the extractor yields discipline Structural, building area 46,
sheet number 1001 and no drawing type (1001 lies outside every 1–699
band); and for every Drawing-classified path whose stem has third
hyphen-segment `150`, the drawing type is Plans. -/
theorem drawing_number_decoding :
    (∀ p : String,
      strIncludes (normalizeSlashes p) "/Drawings/" = true →
      stemOf (basenameOf (normalizeSlashes p)) = "S-46-1001" →
      (extractMetadataFromPath p).discipline = some "Structural" ∧
      (extractMetadataFromPath p).buildingArea = some "46" ∧
      (extractMetadataFromPath p).sheetNumber = some "1001" ∧
      (extractMetadataFromPath p).drawingType = none) ∧
    (∀ p : String,
      strIncludes (normalizeSlashes p) "/Drawings/" = true →
      (splitStr (stemOf (basenameOf (normalizeSlashes p))) '-').length > 2 →
      (splitStr (stemOf (basenameOf (normalizeSlashes p))) '-').getD 2 "" = "150" →
      (extractMetadataFromPath p).drawingType = some "Plans") := by
  constructor
  · intro p h1 h2
    have hext : extractMetadataFromPath p
        = drawingPhase (stemOf (basenameOf (normalizeSlashes p)))
            (projectPhase (splitStr (normalizeSlashes p) '/')
              (docTypePhase (normalizeSlashes p) (basenameOf (normalizeSlashes p))
                { drawingNumber := some (stemOf (basenameOf (normalizeSlashes p))) })) := rfl
    obtain ⟨pr, hproj⟩ := projectPhase_shape (splitStr (normalizeSlashes p) '/')
      ({ drawingNumber := some (stemOf (basenameOf (normalizeSlashes p))),
         documentType := some "Drawing" } : DocumentMetadata)
    rw [hext, docTypePhase_drawing _ _ h1, hproj, h2, drawingPhase_S_46_1001 _ rfl]
    exact ⟨rfl, rfl, rfl, rfl⟩
  · intro p h1 hlen h150
    have hext : extractMetadataFromPath p
        = drawingPhase (stemOf (basenameOf (normalizeSlashes p)))
            (projectPhase (splitStr (normalizeSlashes p) '/')
              (docTypePhase (normalizeSlashes p) (basenameOf (normalizeSlashes p))
                { drawingNumber := some (stemOf (basenameOf (normalizeSlashes p))) })) := rfl
    obtain ⟨pr, hproj⟩ := projectPhase_shape (splitStr (normalizeSlashes p) '/')
      ({ drawingNumber := some (stemOf (basenameOf (normalizeSlashes p))),
         documentType := some "Drawing" } : DocumentMetadata)
    rw [hext, docTypePhase_drawing _ _ h1, hproj]
    exact drawingPhase_drawingType_150 _ _ rfl hlen h150

/-- Witness for C4 at the concrete paths `/ProjectX/Drawings/S-46-1001.pdf`
and `/ProjectX/Drawings/S-46-150.pdf`. -/
theorem drawing_number_decoding_witness :
    (extractMetadataFromPath "/ProjectX/Drawings/S-46-1001.pdf").discipline = some "Structural" ∧
    (extractMetadataFromPath "/ProjectX/Drawings/S-46-1001.pdf").buildingArea = some "46" ∧
    (extractMetadataFromPath "/ProjectX/Drawings/S-46-1001.pdf").sheetNumber = some "1001" ∧
    (extractMetadataFromPath "/ProjectX/Drawings/S-46-1001.pdf").drawingType = none ∧
    (extractMetadataFromPath "/ProjectX/Drawings/S-46-150.pdf").drawingType = some "Plans" := by
  have h1 := drawing_number_decoding.1 "/ProjectX/Drawings/S-46-1001.pdf" (by decide) (by decide)
  have h2 := drawing_number_decoding.2 "/ProjectX/Drawings/S-46-150.pdf" (by decide)
    (by decide) (by decide)
  exact ⟨h1.1, h1.2.1, h1.2.2.1, h1.2.2.2, h2⟩

/-- The project value `extractMetadataFromPath` actually produces, stated
as a standalone function of the path: the first path segment that is
case-insensitively `projects`, `project` or `pdfdrawings-mcp` is
considered; if it has a following segment and is not itself
`pdfdrawings-mcp`, the following segment is the project, otherwise the
default `PDFdrawings`. -/
def projectFromPath (p : String) : String :=
  let parts := splitStr (normalizeSlashes p) '/'
  match parts.findIdx? isProjectSegment with
  | some idx =>
    if idx + 1 < parts.length then
      if toLowerStr (parts.getD idx "") != "pdfdrawings-mcp" then parts.getD (idx + 1) ""
      else "PDFdrawings"
    else "PDFdrawings"
  | none => "PDFdrawings"

/-- The project rule exactly as claim C8 words it: the override looks for
a path segment that is case-insensitively `projects` or `project` (only
those two) followed by another segment, and takes the next segment unless
the matched segment is the root folder name. -/
def claimProjectRule (p : String) : String :=
  let parts := splitStr (normalizeSlashes p) '/'
  match parts.findIdx? (fun part => toLowerStr part == "projects" || toLowerStr part == "project") with
  | some idx =>
    if idx + 1 < parts.length then
      if toLowerStr (parts.getD idx "") != "pdfdrawings-mcp" then parts.getD (idx + 1) ""
      else "PDFdrawings"
    else "PDFdrawings"
  | none => "PDFdrawings"

/-- Counterexample to C8 as stated: in
`/PDFdrawings-MCP/projects/Alpha/file.pdf` the segment `projects` is
followed by `Alpha`, so the claimed rule yields project `Alpha`; but the
code's finder matches the root folder `PDFdrawings-MCP` first and declines
the override, leaving the default `PDFdrawings`. -/
theorem project_override_counterexample :
    claimProjectRule "/PDFdrawings-MCP/projects/Alpha/file.pdf" = "Alpha" ∧
    (splitStr (normalizeSlashes "/PDFdrawings-MCP/projects/Alpha/file.pdf") '/').getD 2 ""
        = "projects" ∧
    (splitStr (normalizeSlashes "/PDFdrawings-MCP/projects/Alpha/file.pdf") '/').getD 3 ""
        = "Alpha" ∧
    (extractMetadataFromPath "/PDFdrawings-MCP/projects/Alpha/file.pdf").project
        = some "PDFdrawings" ∧
    (some "PDFdrawings" : Option String) ≠ some "Alpha" := by
  decide

/-- Claim C8 (amended): the extractor always sets `project`; it is the default
`PDFdrawings` unless the FIRST path segment that is case-insensitively
`projects`, `project` or `pdfdrawings-mcp` is followed by another segment
and is not itself `pdfdrawings-mcp`, in which case that next segment is the
project. -/
theorem extract_project_field (p : String) :
    (extractMetadataFromPath p).project = some (projectFromPath p) := by
  have hext : extractMetadataFromPath p
      = drawingPhase (stemOf (basenameOf (normalizeSlashes p)))
          (projectPhase (splitStr (normalizeSlashes p) '/')
            (docTypePhase (normalizeSlashes p) (basenameOf (normalizeSlashes p))
              { drawingNumber := some (stemOf (basenameOf (normalizeSlashes p))) })) := rfl
  rw [hext, drawingPhase_project, projectPhase_project]
  rfl

/-! ### Lemmas about the search tools -/

theorem guard_chain (a m rest : Bool) :
    (if a && !m then false else rest) = ((!a || m) && rest) := by
  cases a <;> cases m <;> cases rest <;> rfl

theorem bool_imp_iff (t : Bool) (P : Prop) : (t = false ∨ P) ↔ (t = true → P) := by
  cases t <;> simp

theorem chunkFilterPred_iff (params : ChunksSearchParams) (r : SearchResult)
    (md : ResultMetadata) (hmd : r.metadata = some md) :
    chunkFilterPred params r = true ↔ satisfiesChunkFilters params md := by
  unfold chunkFilterPred satisfiesChunkFilters
  rw [hmd]
  dsimp only
  simp only [guard_chain]
  simp only [Bool.and_eq_true, Bool.or_eq_true, Bool.not_eq_true', beq_iff_eq, Bool.and_true]
  simp only [bool_imp_iff]

theorem broadFilterPred_iff (params : BroadSearchParams) (r : SearchResult)
    (md : ResultMetadata) (hmd : r.metadata = some md) :
    broadFilterPred params r = true ↔ satisfiesBroadFilters params md := by
  unfold broadFilterPred satisfiesBroadFilters
  rw [hmd]
  dsimp only
  simp only [guard_chain]
  simp only [Bool.and_eq_true, Bool.or_eq_true, Bool.not_eq_true', beq_iff_eq, Bool.and_true]
  simp only [bool_imp_iff]

theorem chunkFilterPred_no_metadata (params : ChunksSearchParams) (r : SearchResult)
    (hmd : r.metadata = none) : chunkFilterPred params r = false := by
  unfold chunkFilterPred
  rw [hmd]

/-- Claim C5: for every filter combination supplied to chunk search the returned
list is exactly the similarity results whose metadata satisfies every
provided filter by exact string equality (conjunctive AND); with zero
filters the tool returns the unfiltered similarity results; and no
returned record ever has a discipline differing from a supplied discipline
filter.  The same holds for the broad cross-document search. -/
theorem search_filter_conjunction :
    (∀ (params : ChunksSearchParams) (results : List SearchResult) (r : SearchResult)
        (md : ResultMetadata), r.metadata = some md →
      (r ∈ (chunksSearchExecute params results).results
        ↔ r ∈ results ∧ satisfiesChunkFilters params md)) ∧
    (∀ (params : ChunksSearchParams) (results : List SearchResult),
      noChunkFilters params → (∀ r ∈ results, r.metadata.isSome) →
      (chunksSearchExecute params results).results = results) ∧
    (∀ (params : ChunksSearchParams) (results : List SearchResult) (r : SearchResult)
        (d : String),
      r ∈ (chunksSearchExecute params results).results → params.discipline = some d →
      d ≠ "" → ∃ md, r.metadata = some md ∧ md.discipline = some d) ∧
    (∀ (params : BroadSearchParams) (results : List SearchResult) (r : SearchResult)
        (md : ResultMetadata), r.metadata = some md →
      (r ∈ (broadSearchExecute params results).results
        ↔ r ∈ results ∧ satisfiesBroadFilters params md)) ∧
    (∀ (params : BroadSearchParams) (results : List SearchResult),
      noBroadFilters params → (broadSearchExecute params results).results = results) ∧
    (∀ (params : BroadSearchParams) (results : List SearchResult) (r : SearchResult)
        (d : String),
      r ∈ (broadSearchExecute params results).results → params.discipline = some d →
      d ≠ "" → ∃ md, r.metadata = some md ∧ md.discipline = some d) := by
  refine ⟨?_, ?_, ?_, ?_, ?_, ?_⟩
  · intro params results r md hmd
    unfold chunksSearchExecute
    rw [List.mem_filter, chunkFilterPred_iff params r md hmd]
  · intro params results hz hmeta
    unfold chunksSearchExecute
    dsimp only
    rw [List.filter_eq_self]
    intro r hr
    obtain ⟨md, hmd⟩ := Option.isSome_iff_exists.mp (hmeta r hr)
    rw [chunkFilterPred_iff params r md hmd]
    obtain ⟨h1, h2, h3, h4, h5, h6⟩ := hz
    unfold satisfiesChunkFilters
    rw [h1, h2, h3, h4, h5, h6]
    simp [truthyOpt]
  · intro params results r d hr hd hne
    unfold chunksSearchExecute at hr
    have hpred := (List.mem_filter.mp hr).2
    cases hmd : r.metadata with
    | none => rw [chunkFilterPred_no_metadata params r hmd] at hpred; cases hpred
    | some md =>
      have hsat := (chunkFilterPred_iff params r md hmd).mp hpred
      refine ⟨md, rfl, ?_⟩
      have htr : truthyOpt params.discipline = true := by
        rw [hd]
        simpa [truthyOpt] using hne
      rw [hsat.2.2.1 htr, hd]
  · intro params results r md hmd
    unfold broadSearchExecute
    by_cases hg : (truthyOpt params.project || truthyOpt params.discipline ||
        truthyOpt params.drawingType || truthyOpt params.phase) = true
    · rw [if_pos hg]
      dsimp only
      rw [List.mem_filter, broadFilterPred_iff params r md hmd]
    · rw [if_neg hg]
      dsimp only
      obtain ⟨⟨⟨hp, hdi⟩, hdt⟩, hph⟩ :
          ((truthyOpt params.project = false ∧ truthyOpt params.discipline = false) ∧
            truthyOpt params.drawingType = false) ∧ truthyOpt params.phase = false := by
        simpa [Bool.or_eq_true, not_or] using hg
      unfold satisfiesBroadFilters
      rw [hp, hdi, hdt, hph]
      simp
  · intro params results hz
    unfold broadSearchExecute
    obtain ⟨h1, h2, h3, h4⟩ := hz
    rw [h1, h2, h3, h4]
    rfl
  · intro params results r d hr hd hne
    have htr : truthyOpt params.discipline = true := by
      rw [hd]
      simpa [truthyOpt] using hne
    unfold broadSearchExecute at hr
    have hg : (truthyOpt params.project || truthyOpt params.discipline ||
        truthyOpt params.drawingType || truthyOpt params.phase) = true := by
      rw [htr]
      simp
    rw [if_pos hg] at hr
    dsimp only at hr
    have hpred := (List.mem_filter.mp hr).2
    cases hmd : r.metadata with
    | none =>
      unfold broadFilterPred at hpred
      rw [hmd] at hpred
      cases hpred
    | some md =>
      have hsat := (broadFilterPred_iff params r md hmd).mp hpred
      refine ⟨md, rfl, ?_⟩
      rw [hsat.2.1 htr, hd]

/-- Witness for C5: with zero filters a metadata-carrying result is
returned as-is; with a discipline filter, a returned record's discipline
equals the filter value. -/
theorem search_filter_conjunction_witness :
    (chunksSearchExecute { text := "q" }
        [{ pageContent := "a", metadata := some { discipline := some "Structural" } }]).results
      = [{ pageContent := "a", metadata := some { discipline := some "Structural" } }] ∧
    (∃ md, ({ pageContent := "a", metadata := some { discipline := some "Structural" } } : SearchResult).metadata
          = some md ∧ md.discipline = some "Structural") := by
  constructor
  · exact search_filter_conjunction.2.1 { text := "q" } _
      ⟨rfl, rfl, rfl, rfl, rfl, rfl⟩ (by decide)
  · refine search_filter_conjunction.2.2.1
      { text := "q", discipline := some "Structural" }
      [{ pageContent := "a", metadata := some { discipline := some "Structural" } }]
      _ "Structural" ?_ rfl (by decide)
    decide

/-- Claim C9: with the image vector store unset (image table never initialized),
`image_search` returns the structured, error-flagged guidance response and
never throws; at connection setup a missing image table is non-fatal (the
connection succeeds with the image store unset) while a missing chunks or
catalog table is fatal. -/
theorem image_search_unavailable_guard :
    (∀ (invoke : String → List ImageResult) (params : ImageSearchParams),
      imageSearchExecute none invoke params
        = { content := .message imageUnavailableText, isError := true }) ∧
    strIncludes imageUnavailableText "has not been initialized" = true ∧
    strIncludes imageUnavailableText "seeded with images" = true ∧
    (∀ (ct kt : LanceTable) (e : String),
      connectToLanceDB (.ok ct) (.ok kt) (.error e)
        = .ok { chunksTable := ct, catalogTable := kt, imageTable := none }) ∧
    (∀ (e : String) (catalogOpen imageOpen : Except String LanceTable),
      connectToLanceDB (.error e) catalogOpen imageOpen = .error e) ∧
    (∀ (ct : LanceTable) (e : String) (imageOpen : Except String LanceTable),
      connectToLanceDB (.ok ct) (.error e) imageOpen = .error e) := by
  exact ⟨fun invoke params => rfl, by decide, by decide, fun ct kt e => rfl,
    fun e c i => rfl, fun ct e i => rfl⟩

end ClaudeHopper
